import Mathlib

/-!
Shallow embedding of the 1BRC pipeline (src/src/main.rs).

Modelling conventions:
- f64 values are modelled as exact rationals (ℚ).  All values flowing through
  the pipeline are decimals parsed from text and rounded to one decimal place,
  so they are exactly representable; binary floating-point rounding of sums is
  not modelled.  NaN / infinity inputs are outside the model.
- The u32 record counter is modelled as ℕ; wrap-around would require more than
  2 to the 32 records for a single key and is outside the model.
- File contents and strings are List Char (the inputs are ASCII, so byte
  indices and char indices coincide; the from_utf8 validity check of the probe
  buffer is outside the model).
- Every panicking operation (unwrap, unreachable) is modelled by Option: none
  means the run aborts without producing a report.
- HashMap contents are modelled as association lists in insertion order;
  lookup returns the first matching entry (keys built by the code are unique).
- A read at offset pos returns min(100, remaining) bytes, as a successful
  Rust read of a regular file does; the probe buffer keeps its previous
  contents past the bytes actually read, exactly as the stack buffer in
  memory_map does.
-/

/-- Per-key aggregate, mirroring struct Measurement { min, max, sum: f64, count: u32 }. -/
structure Measurement where
  min : ℚ
  max : ℚ
  sum : ℚ
  count : ℕ
deriving DecidableEq, Repr

/-- Measurement::record: branchy min/max update, then sum += m, count += 1. -/
def Measurement.record (self : Measurement) (m : ℚ) : Measurement :=
  { min := if m < self.min then m else self.min
    max := if m > self.max then m else self.max
    sum := self.sum + m
    count := self.count + 1 }

/-- Measurement::aggregate: merge another partial accumulator into this one. -/
def Measurement.aggregate (self other : Measurement) : Measurement :=
  { min := if other.min < self.min then other.min else self.min
    max := if other.max > self.max then other.max else self.max
    sum := self.sum + other.sum
    count := self.count + other.count }

/-- The From f64 impl: first observation creates min = max = sum = value, count = 1. -/
def Measurement.fromF64 (m : ℚ) : Measurement :=
  { min := m, max := m, sum := m, count := 1 }

/-- round_towards_positive: negatives scale by 10, ceil, rescale; non-negatives
use f64::round, i.e. round to nearest with ties away from zero, which for a
non-negative argument is the floor of the value plus one half. -/
def round_towards_positive (n : ℚ) : ℚ :=
  if n < 0 then (⌈n * 10⌉ : ℚ) / 10
  else (⌊n * 10 + 1/2⌋ : ℚ) / 10

/-- All characters are ASCII digits. -/
def allDigits (cs : List Char) : Bool := cs.all Char.isDigit

/-- Decimal digits to a natural number. -/
def natOfDigits (cs : List Char) : ℕ :=
  cs.foldl (fun acc c => acc * 10 + (c.toNat - 48)) 0

/-- str::parse::<f64> restricted to the finite decimal fragment: optional sign,
integer digits, optional point and fraction digits.  Exponents, inf and NaN are
outside the model (the input contract never produces them). -/
def parseF64 (cs : List Char) : Option ℚ :=
  let sb : ℚ × List Char :=
    match cs with
    | '-' :: rest => (-1, rest)
    | '+' :: rest => (1, rest)
    | _ => (1, cs)
  let intPart := sb.2.takeWhile (fun c => c != '.')
  let rest := sb.2.dropWhile (fun c => c != '.')
  match rest with
  | [] =>
    if !sb.2.isEmpty && allDigits sb.2 then some (sb.1 * natOfDigits sb.2) else none
  | _ :: frac =>
    if (!intPart.isEmpty || !frac.isEmpty) && allDigits intPart && allDigits frac then
      some (sb.1 * ((natOfDigits intPart : ℚ) + (natOfDigits frac : ℚ) / (10 : ℚ) ^ frac.length))
    else none

/-- The reverse scan of parse_line: split at the LAST semicolon, returning the
text before it and the text after it; none when no semicolon exists
(the unreachable! panic). -/
def splitLastSemi : List Char → Option (List Char × List Char)
  | [] => none
  | c :: cs =>
    match splitLastSemi cs with
    | some (a, b) => some (c :: a, b)
    | none => if c = ';' then some ([], cs) else none

/-- parse_line: split at the last semicolon, parse the value text, round it. -/
def parse_line (line : List Char) : Option (List Char × ℚ) :=
  match splitLastSemi line with
  | none => none
  | some (city, valueText) =>
    match parseF64 valueText with
    | none => none
    | some v => some (city, round_towards_positive v)

/-- Split on newline characters (str::split with a newline pattern). -/
def splitOnNewline : List Char → List (List Char)
  | [] => [[]]
  | c :: cs =>
    if c = '\n' then [] :: splitOnNewline cs
    else
      match splitOnNewline cs with
      | [] => [[c]]
      | p :: ps => (c :: p) :: ps

/-- str::lines: split on newlines, drop a final empty segment, strip a
trailing carriage return from each line. -/
def rustLines (cs : List Char) : List (List Char) :=
  let ps := splitOnNewline cs
  let ps := if ps.getLast? = some [] then ps.dropLast else ps
  ps.map (fun l => if l.getLast? = some '\r' then l.dropLast else l)

/-- Worker-local and global mappings: association list in insertion order. -/
abbrev MMap := List (List Char × Measurement)

/-- First-match lookup, mirroring HashMap::get for the unique-key maps built here. -/
def lookupA : MMap → List Char → Option Measurement
  | [], _ => none
  | (k1, v) :: rest, k => if k1 = k then some v else lookupA rest k

/-- One iteration of the process_lines loop body: record into an existing
entry, or insert Measurement::from(value) for a new key. -/
def recordInto : MMap → List Char → ℚ → MMap
  | [], k, v => [(k, Measurement.fromF64 v)]
  | (k1, m) :: rest, k, v =>
    if k1 = k then (k1, m.record v) :: rest
    else (k1, m) :: recordInto rest k v

/-- The line loop of process_lines: a failing parse aborts the run. -/
def processLinesGo : MMap → List (List Char) → Option MMap
  | m, [] => some m
  | m, line :: rest =>
    match parse_line line with
    | none => none
    | some cv => processLinesGo (recordInto m cv.1 cv.2) rest

/-- process_lines: split the chunk contents into lines and fold them into a
fresh local mapping. -/
def process_lines (contents : List Char) : Option MMap :=
  processLinesGo [] (rustLines contents)

/-- One probe read of memory_map: read up to 100 bytes at pos into the 100-byte
buffer; bytes beyond the read keep their previous (stale) contents. -/
def probeRead (file : List Char) (pos : ℕ) (temp : List Char) : List Char :=
  let r := (file.drop pos).take 100
  r ++ temp.drop r.length

/-- Index search used by temp.find: position of the first newline. -/
def findNewlineGo : List Char → ℕ → Option ℕ
  | [], _ => none
  | c :: cs, i => if c = '\n' then some i else findNewlineGo cs (i + 1)

/-- temp.find of the newline character: index of the first newline in the probe buffer. -/
def findNewline (temp : List Char) : Option ℕ :=
  findNewlineGo temp 0

/-- The chunk loop of memory_map: at each step probe at beginning + chunkSize,
take the first newline index in the buffer as the chunk end, push
(beginning, end) and restart one byte past the end.  A probe buffer with no
newline is the unwrap panic. -/
def memoryMapGo (file : List Char) (chunkSize : ℕ) :
    ℕ → ℕ → List Char → Option (List (ℕ × ℕ))
  | 0, _, _ => some []
  | n + 1, beginning, temp =>
    let temp1 := probeRead file (beginning + chunkSize) temp
    match findNewline temp1 with
    | none => none
    | some idx =>
      match memoryMapGo file chunkSize n (idx + beginning + chunkSize + 1) temp1 with
      | none => none
      | some rest => some ((beginning, idx + beginning + chunkSize) :: rest)

/-- memory_map: chunk_size = file_size / W, probe buffer initially zero-filled. -/
def memory_map (file : List Char) (availableParallelism : ℕ) : Option (List (ℕ × ℕ)) :=
  memoryMapGo file (file.length / availableParallelism) availableParallelism 0
    (List.replicate 100 (Char.ofNat 0))

/-- process_mapped_lines: read (end - start) bytes from offset start (the take
adapter stops at end of file) and run process_lines on them. -/
def process_mapped_lines (file : List Char) (start stop : ℕ) : Option MMap :=
  process_lines ((file.drop start).take (stop - start))

/-- Run every chunk through process_mapped_lines; any chunk failure aborts. -/
def mapChunks (file : List Char) : List (ℕ × ℕ) → Option (List MMap)
  | [] => some []
  | se :: rest =>
    match process_mapped_lines file se.1 se.2 with
    | none => none
    | some m =>
      match mapChunks file rest with
      | none => none
      | some ms => some (m :: ms)

/-- One iteration of the merge loop in main: aggregate into an existing global
entry or move the worker accumulator in. -/
def insertOrAggregate : MMap → List Char → Measurement → MMap
  | [], k, m => [(k, m)]
  | (k1, m1) :: rest, k, m =>
    if k1 = k then (k1, m1.aggregate m) :: rest
    else (k1, m1) :: insertOrAggregate rest k m

/-- Merge one worker result into the global mapping, entry by entry. -/
def mergeChunkInto (glob : MMap) : MMap → MMap
  | [] => glob
  | (k, m) :: rest => mergeChunkInto (insertOrAggregate glob k m) rest

/-- The join loop of main: fold worker results into the global mapping in
worker-spawn-index order. -/
def mainAggregate (results : List MMap) : MMap :=
  results.foldl mergeChunkInto []

/-- Byte-wise (lexicographic) strict order on keys, as str::cmp gives for ASCII. -/
def keyLtB : List Char → List Char → Bool
  | [], [] => false
  | [], _ :: _ => true
  | _ :: _, [] => false
  | a :: as1, b :: bs1 => a < b || (a = b && keyLtB as1 bs1)

/-- Non-strict key order. -/
def keyLeB (a b : List Char) : Bool := !keyLtB b a

/-- Insert an entry into an already-sorted list at its key position. -/
def insertByKey (p : List Char × Measurement) : MMap → MMap
  | [] => [p]
  | q :: rest => if keyLeB p.1 q.1 then p :: q :: rest else q :: insertByKey p rest

/-- results.sort_by on the key: ascending byte-wise order. -/
def sortResults (m : MMap) : MMap := m.foldr insertByKey []

/-- Decimal digits of a natural number. -/
def natDigits (n : ℕ) : List Char := Nat.toDigits 10 n

/-- Decimal rendering of an integer. -/
def intChars (i : ℤ) : List Char :=
  if i < 0 then '-' :: natDigits i.natAbs else natDigits i.toNat

/-- Render the value k / 10 with exactly one fractional digit (the {:.1} format). -/
def fmtTenthsAlways (k : ℤ) : List Char :=
  (if k < 0 then ['-'] else []) ++ natDigits (k.natAbs / 10) ++ '.' :: natDigits (k.natAbs % 10)

/-- Render the value k / 10 in shortest form (the default f64 Display for a
one-decimal value): drop the fractional part when it is zero. -/
def fmtTenthsShort (k : ℤ) : List Char :=
  if k % 10 = 0 then intChars (k / 10) else fmtTenthsAlways k

/-- Default f64 Display, on the tenth-valued rationals the pipeline produces. -/
def fmtF64Display (q : ℚ) : List Char :=
  if (q * 10).den = 1 then fmtTenthsShort (q * 10).num else ['?']

/-- The {:.1} format: correctly round to one decimal and always print one
fractional digit.  An exact decimal tie is modelled as rounding half up; the
concrete values in this development are never ties. -/
def fmtF64Prec1 (q : ℚ) : List Char :=
  fmtTenthsAlways (round (q * 10))

/-- The Display impl for Measurement: min and max with the default format, the
mean computed as sum / count at render time with one fractional digit. -/
def Measurement.render (m : Measurement) : List Char :=
  fmtF64Display m.min ++ '/' :: fmtF64Display m.max ++ '/' :: fmtF64Prec1 (m.sum / (m.count : ℚ))

/-- One written entry of the report: key=min/max/mean followed by a comma
(the loop writes the comma after every entry, the last one included). -/
def renderEntry (p : List Char × Measurement) : List Char :=
  p.1 ++ '=' :: p.2.render ++ [',']

/-- The full byte stream written by main: an opening brace, the sorted comma
terminated entries, then the backspace byte 0x08 and the closing brace. -/
def renderReport (glob : MMap) : List Char :=
  '{' :: ((sortResults glob).map renderEntry).flatten ++ [Char.ofNat 8, '}']

/-- The whole pipeline of main, parameterised by the worker count: plan the
chunks, process each chunk, merge in spawn order, sort and render. -/
def runPipeline (file : List Char) (w : ℕ) : Option (List Char) :=
  match memory_map file w with
  | none => none
  | some mmap =>
    match mapChunks file mmap with
    | none => none
    | some results => some (renderReport (mainAggregate results))

/-- Chunk lists whose first range starts at b, where each range has start ≤ end
and each following range starts exactly one byte past the previous end. -/
def Chained : ℕ → List (ℕ × ℕ) → Prop
  | _, [] => True
  | b, se :: rest => se.1 = b ∧ se.1 ≤ se.2 ∧ Chained (se.2 + 1) rest

/-- The accumulator invariant: a positive record count and min ≤ max. -/
def AccInv (m : Measurement) : Prop := 1 ≤ m.count ∧ m.min ≤ m.max

/-- The contribution each worker result makes to one key, in spawn order. -/
def contribs (results : List MMap) (k : List Char) : List Measurement :=
  results.filterMap (fun chunk => lookupA chunk k)

/-- Merge a list of per-chunk contributions strictly left to right; none when
no chunk saw the key. -/
def foldContribs : List Measurement → Option Measurement
  | [] => none
  | c :: cs => some (cs.foldl Measurement.aggregate c)

/-- Fold one contribution into an optional running accumulator. -/
def stepOpt (o : Option Measurement) (c : Measurement) : Option Measurement :=
  match o with
  | none => some c
  | some g => some (g.aggregate c)

/-- Combine an optional global entry with an optional chunk contribution. -/
def combineOpt (o : Option Measurement) : Option Measurement → Option Measurement
  | none => o
  | some c => stepOpt o c

theorem ite_lt_eq_min (x y : ℚ) : (if y < x then y else x) = min x y := by
  rcases le_or_lt x y with h | h
  · rw [if_neg (not_lt.mpr h), min_eq_left h]
  · rw [if_pos h, min_eq_right h.le]

theorem ite_gt_eq_max (x y : ℚ) : (if y > x then y else x) = max x y := by
  rcases lt_or_le x y with h | h
  · rw [if_pos h, max_eq_right h.le]
  · rw [if_neg (not_lt.mpr h), max_eq_left h]

theorem Measurement.record_eq (m : Measurement) (v : ℚ) :
    m.record v = ⟨Min.min m.min v, Max.max m.max v, m.sum + v, m.count + 1⟩ := by
  simp only [Measurement.record, ite_lt_eq_min, ite_gt_eq_max]

theorem Measurement.aggregate_eq (a b : Measurement) :
    a.aggregate b =
      ⟨Min.min a.min b.min, Max.max a.max b.max, a.sum + b.sum, a.count + b.count⟩ := by
  simp only [Measurement.aggregate, ite_lt_eq_min, ite_gt_eq_max]

/-- C3: the merge computes the fieldwise min, max, sum and count combination,
and is commutative and associative in all four fields. -/
theorem c3_merge_commutative_associative :
    (∀ a b : Measurement,
      a.aggregate b = ⟨min a.min b.min, max a.max b.max, a.sum + b.sum, a.count + b.count⟩) ∧
    (∀ a b : Measurement, a.aggregate b = b.aggregate a) ∧
    (∀ a b c : Measurement, (a.aggregate b).aggregate c = a.aggregate (b.aggregate c)) := by
  refine ⟨Measurement.aggregate_eq, ?_, ?_⟩
  · intro a b
    rw [Measurement.aggregate_eq, Measurement.aggregate_eq, min_comm a.min b.min,
      max_comm a.max b.max, add_comm a.sum b.sum, Nat.add_comm a.count b.count]
  · intro a b c
    simp only [Measurement.aggregate_eq, min_assoc, max_assoc, add_assoc]

/-- C5: corrected rounding policy.  A negative input is scaled by 10, ceiled
and rescaled; a non-negative input is instead rounded to nearest (ties away
from zero, the semantics of f64::round); rounding is the identity on every
value already expressed with one decimal digit, in particular on -2.0. -/
theorem c5_rounding_amended :
    (∀ q : ℚ, q < 0 → round_towards_positive q = (⌈q * 10⌉ : ℚ) / 10) ∧
    (∀ k : ℤ, round_towards_positive ((k : ℚ) / 10) = (k : ℚ) / 10) := by
  constructor
  · intro q hq
    rw [round_towards_positive, if_pos hq]
  · intro k
    have h10 : ((k : ℚ) / 10) * 10 = (k : ℚ) := by
      rw [div_mul_cancel₀]
      norm_num
    have hhalf : (⌊(1/2 : ℚ)⌋ : ℤ) = 0 := by
      rw [Int.floor_eq_zero_iff]
      constructor <;> norm_num
    rw [round_towards_positive]
    split_ifs with h
    · rw [h10, Int.ceil_intCast]
    · rw [h10, add_comm, Int.floor_add_int, hhalf, zero_add]

/-- C5 witness: the amended theorem applied at -2.1 (negative branch) and at
-2.0 written as -20 tenths (idempotence, the value named by the claim). -/
theorem c5_rounding_amended_witness :
    round_towards_positive (-(21/10) : ℚ) = (⌈(-(21/10) : ℚ) * 10⌉ : ℚ) / 10 ∧
    round_towards_positive (((-20 : ℤ) : ℚ) / 10) = ((-20 : ℤ) : ℚ) / 10 :=
  ⟨c5_rounding_amended.1 _ (by norm_num), c5_rounding_amended.2 (-20)⟩

/-- C5 counterexample: the claim says every input is ceiled after scaling by
ten, but the positive input 0.11 is rounded to 0.1 by the code, while the
ceiling policy of the claim would give 0.2. -/
theorem c5_rounding_counterexample :
    round_towards_positive (11/100) = 1/10 ∧
    (⌈(11/100 : ℚ) * 10⌉ : ℚ) / 10 = 2/10 ∧ (1/10 : ℚ) ≠ 2/10 := by
  refine ⟨by with_unfolding_all rfl, by with_unfolding_all rfl, by with_unfolding_all decide⟩

/-- C6: a first observation creates min = max = sum = value and count = 1,
each record updates min, max, sum and count as stated, and the observation
sequence 3.1, -2.0, 7.7 produces min -2.0, max 7.7, sum 8.8, count 3. -/
theorem c6_record_correct :
    (∀ v : ℚ, Measurement.fromF64 v = ⟨v, v, v, 1⟩) ∧
    (∀ (m : Measurement) (v : ℚ),
      m.record v = ⟨min m.min v, max m.max v, m.sum + v, m.count + 1⟩) ∧
    ((Measurement.fromF64 (31/10)).record (-(2 : ℚ))).record (77/10) =
      ⟨-(2 : ℚ), 77/10, 88/10, 3⟩ := by
  refine ⟨fun v => rfl, Measurement.record_eq, by with_unfolding_all rfl⟩

theorem memoryMapGo_chained (file : List Char) (cs : ℕ) :
    ∀ (n b : ℕ) (temp : List Char) (l : List (ℕ × ℕ)),
      memoryMapGo file cs n b temp = some l → l.length = n ∧ Chained b l := by
  intro n
  induction n with
  | zero =>
    intro b temp l h
    simp only [memoryMapGo, Option.some.injEq] at h
    subst h
    exact ⟨rfl, trivial⟩
  | succ n ih =>
    intro b temp l h
    simp only [memoryMapGo] at h
    split at h
    · exact absurd h (by simp)
    · rename_i idx hf
      split at h
      · exact absurd h (by simp)
      · rename_i rest hr
        simp only [Option.some.injEq] at h
        subst h
        obtain ⟨hlen, hch⟩ := ih _ _ rest hr
        exact ⟨by simp [hlen], rfl, by omega, hch⟩

/-- C1: the claim of identical output for every worker count fails in the code:
with W = 1 the planner probes at end of file into the zero-initialised buffer,
finds no newline and panics, so no report is produced at all, while W = 2, 3, 4
succeed and agree on this input. -/
theorem c1_output_per_worker_count :
    runPipeline (("a;1.0\nb;2.0\n").toList) 1 = none ∧
    (runPipeline (("a;1.0\nb;2.0\n").toList) 2).isSome = true ∧
    runPipeline (("a;1.0\nb;2.0\n").toList) 2 = runPipeline (("a;1.0\nb;2.0\n").toList) 3 ∧
    runPipeline (("a;1.0\nb;2.0\n").toList) 3 = runPipeline (("a;1.0\nb;2.0\n").toList) 4 := by
  refine ⟨by with_unfolding_all rfl, by with_unfolding_all rfl, by with_unfolding_all rfl,
    by with_unfolding_all rfl⟩

/-- C2 counterexample: on the 12-byte file a;1.0 b;2.0 with two workers the
planner returns [(0, 11), (12, 23)]: byte 11 (the newline) is in no chunk, so
the union of the ranges is not [0, 12), and the final end 23 is not the file
size 12. -/
theorem c2_chunk_coverage_counterexample :
    memory_map (("a;1.0\nb;2.0\n").toList) 2 = some [(0, 11), (12, 23)] ∧
    (("a;1.0\nb;2.0\n").toList).length = 12 ∧
    (∀ se ∈ [((0 : ℕ), (11 : ℕ)), (12, 23)], ¬(se.1 ≤ 11 ∧ 11 < se.2)) ∧
    (23 : ℕ) ≠ 12 := by
  refine ⟨by with_unfolding_all rfl, by with_unfolding_all rfl, by decide, by decide⟩

/-- C2 amended: a successful plan has exactly W ranges, the first starting at
byte 0, each with start ≤ end, and each later range starting exactly one byte
past the previous end — so consecutive ranges skip one byte (the probed line
break) instead of covering [0, file_size) exactly, and the final end is
whatever the last probe produced rather than the file size. -/
theorem c2_chunk_plan_amended (file : List Char) (w : ℕ) (mmap : List (ℕ × ℕ))
    (h : memory_map file w = some mmap) :
    mmap.length = w ∧ Chained 0 mmap := by
  unfold memory_map at h
  exact memoryMapGo_chained file (file.length / w) w 0 _ mmap h

/-- C2 witness: the amended theorem applied to the concrete two-worker plan. -/
theorem c2_chunk_plan_amended_witness :
    ([((0 : ℕ), (11 : ℕ)), (12, 23)]).length = 2 ∧ Chained 0 [(0, 11), (12, 23)] :=
  c2_chunk_plan_amended (("a;1.0\nb;2.0\n").toList) 2 [(0, 11), (12, 23)]
    (by with_unfolding_all rfl)

theorem splitLastSemi_of_not_mem (b : List Char) (h : ';' ∉ b) : splitLastSemi b = none := by
  induction b with
  | nil => rfl
  | cons c cs ih =>
    have hc : c ≠ ';' := fun hc => h (hc ▸ List.mem_cons_self c cs)
    have hcs : ';' ∉ cs := fun hm => h (List.mem_cons_of_mem c hm)
    simp only [splitLastSemi, ih hcs]
    exact if_neg hc

theorem splitLastSemi_append (a b : List Char) (h : ';' ∉ b) :
    splitLastSemi (a ++ ';' :: b) = some (a, b) := by
  induction a with
  | nil =>
    simp only [List.nil_append, splitLastSemi, splitLastSemi_of_not_mem b h]
    simp
  | cons c cs ih =>
    rw [List.cons_append, splitLastSemi, ih]

/-- C9: the record splitter scans from the end of the line, splits at the LAST
semicolon, and returns the text before it as the key and the text after it as
the value text. -/
theorem c9_split_at_last_delimiter (a b : List Char) (h : ';' ∉ b) :
    splitLastSemi (a ++ ';' :: b) = some (a, b) :=
  splitLastSemi_append a b h

/-- C9 witness: a key that itself contains a semicolon is split at the last one. -/
theorem c9_split_at_last_delimiter_witness :
    splitLastSemi (("x;y").toList ++ ';' :: ("1.0").toList) =
      some (("x;y").toList, ("1.0").toList) :=
  c9_split_at_last_delimiter (("x;y").toList) (("1.0").toList) (by decide)

theorem findNewlineGo_eq_none (l : List Char) (h : ∀ c ∈ l, c ≠ '\n') :
    ∀ i, findNewlineGo l i = none := by
  induction l with
  | nil => intro i; rfl
  | cons c cs ih =>
    intro i
    rw [findNewlineGo, if_neg (h c (List.mem_cons_self c cs))]
    exact ih (fun x hx => h x (List.mem_cons_of_mem c hx)) (i + 1)

theorem findNewline_eq_none (l : List Char) (h : ∀ c ∈ l, c ≠ '\n') :
    findNewline l = none :=
  findNewlineGo_eq_none l h 0

theorem probeRead_no_newline (file : List Char) (pos : ℕ)
    (hfile : ∀ c ∈ file, c ≠ '\n') :
    ∀ c ∈ probeRead file pos (List.replicate 100 (Char.ofNat 0)), c ≠ '\n' := by
  intro c hc
  rcases List.mem_append.mp hc with h1 | h2
  · exact hfile c (List.drop_subset pos file (List.take_subset 100 _ h1))
  · have : c ∈ List.replicate 100 (Char.ofNat 0) := List.drop_subset _ _ h2
    rw [List.eq_of_mem_replicate this]
    decide

theorem memory_map_none_of_no_newline (file : List Char) (w : ℕ) (hw : 1 ≤ w)
    (h : ∀ c ∈ file, c ≠ '\n') : memory_map file w = none := by
  obtain ⟨n, rfl⟩ : ∃ n, w = n + 1 := ⟨w - 1, by omega⟩
  unfold memory_map
  simp only [memoryMapGo]
  rw [findNewline_eq_none _ (probeRead_no_newline file _ h)]

theorem mapChunks_none_of_mem (file : List Char) :
    ∀ (mmap : List (ℕ × ℕ)) (p : ℕ × ℕ), p ∈ mmap →
      process_mapped_lines file p.1 p.2 = none → mapChunks file mmap = none := by
  intro mmap
  induction mmap with
  | nil => intro p hp _; exact absurd hp (List.not_mem_nil p)
  | cons se rest ih =>
    intro p hp hnone
    simp only [mapChunks]
    rcases List.mem_cons.mp hp with rfl | h2
    · rw [hnone]
    · cases hse : process_mapped_lines file se.1 se.2 with
      | none => rfl
      | some m => rw [ih p h2 hnone]

/-- C8: each malformed-input condition is fatal with no fallback: a line with
no delimiter makes parse_line fail; a line whose value text the number parser
rejects makes parse_line fail; a probe window with no line break (here: a file
with no newline at all) makes the chunk planner fail; and once the planner or
any chunk fails the whole pipeline returns no report. -/
theorem c8_malformed_input_fatal :
    (∀ line : List Char, ';' ∉ line → parse_line line = none) ∧
    (∀ a b : List Char, ';' ∉ b → parseF64 b = none → parse_line (a ++ ';' :: b) = none) ∧
    (∀ (file : List Char) (w : ℕ), 1 ≤ w → (∀ c ∈ file, c ≠ '\n') →
      memory_map file w = none) ∧
    (∀ (file : List Char) (w : ℕ), memory_map file w = none → runPipeline file w = none) ∧
    (∀ (file : List Char) (w : ℕ) (mmap : List (ℕ × ℕ)) (p : ℕ × ℕ),
      memory_map file w = some mmap → p ∈ mmap →
      process_mapped_lines file p.1 p.2 = none → runPipeline file w = none) := by
  refine ⟨?_, ?_, memory_map_none_of_no_newline, ?_, ?_⟩
  · intro line h
    rw [parse_line, splitLastSemi_of_not_mem line h]
  · intro a b hb hpf
    rw [parse_line, splitLastSemi_append a b hb]
    dsimp only
    rw [hpf]
  · intro file w h
    rw [runPipeline, h]
  · intro file w mmap p hm hp hc
    rw [runPipeline, hm]
    dsimp only
    rw [mapChunks_none_of_mem file mmap p hp hc]

/-- C8 witness: the fatal paths at concrete inputs: a line with no delimiter, a
record with the unparseable value text x.y, a newline-free file with one
worker, and the resulting report-free pipeline run. -/
theorem c8_malformed_input_fatal_witness :
    parse_line (("ab").toList) = none ∧
    parse_line (("a").toList ++ ';' :: ("x.y").toList) = none ∧
    memory_map (("ab").toList) 1 = none ∧
    runPipeline (("ab").toList) 1 = none :=
  ⟨c8_malformed_input_fatal.1 _ (by decide),
   c8_malformed_input_fatal.2.1 (("a").toList) (("x.y").toList) (by decide)
     (by with_unfolding_all rfl),
   c8_malformed_input_fatal.2.2.1 (("ab").toList) 1 (by decide) (by decide),
   c8_malformed_input_fatal.2.2.2.1 (("ab").toList) 1
     (c8_malformed_input_fatal.2.2.1 (("ab").toList) 1 (by decide) (by decide))⟩

theorem accInv_fromF64 (v : ℚ) : AccInv (Measurement.fromF64 v) :=
  ⟨le_refl 1, le_refl v⟩

theorem accInv_record (m : Measurement) (v : ℚ) (h : AccInv m) : AccInv (m.record v) := by
  rw [Measurement.record_eq]
  exact ⟨h.1.trans (Nat.le_add_right _ _),
    (min_le_left _ _).trans (h.2.trans (le_max_left _ _))⟩

theorem accInv_aggregate (a b : Measurement) (ha : AccInv a) (_hb : AccInv b) :
    AccInv (a.aggregate b) := by
  rw [Measurement.aggregate_eq]
  exact ⟨ha.1.trans (Nat.le_add_right _ _),
    (min_le_left _ _).trans (ha.2.trans (le_max_left _ _))⟩

theorem recordInto_inv (k : List Char) (v : ℚ) :
    ∀ m : MMap, (∀ p ∈ m, AccInv p.2) → ∀ p ∈ recordInto m k v, AccInv p.2 := by
  intro m
  induction m with
  | nil =>
    intro _ p hp
    simp only [recordInto, List.mem_singleton] at hp
    subst hp
    exact accInv_fromF64 v
  | cons q rest ih =>
    obtain ⟨k1, m1⟩ := q
    intro h p hp
    rw [recordInto] at hp
    by_cases hk : k1 = k
    · rw [if_pos hk] at hp
      rcases List.mem_cons.mp hp with rfl | h2
      · exact accInv_record m1 v (h (k1, m1) (List.mem_cons_self _ _))
      · exact h p (List.mem_cons_of_mem _ h2)
    · rw [if_neg hk] at hp
      rcases List.mem_cons.mp hp with rfl | h2
      · exact h (k1, m1) (List.mem_cons_self _ _)
      · exact ih (fun x hx => h x (List.mem_cons_of_mem _ hx)) p h2

theorem processLinesGo_inv :
    ∀ (lines : List (List Char)) (m m1 : MMap), (∀ p ∈ m, AccInv p.2) →
      processLinesGo m lines = some m1 → ∀ p ∈ m1, AccInv p.2 := by
  intro lines
  induction lines with
  | nil =>
    intro m m1 h he
    simp only [processLinesGo, Option.some.injEq] at he
    subst he
    exact h
  | cons line rest ih =>
    intro m m1 h he
    simp only [processLinesGo] at he
    split at he
    · exact absurd he (by simp)
    · rename_i cv hpl
      exact ih _ m1 (recordInto_inv cv.1 cv.2 m h) he

theorem insertOrAggregate_inv (k : List Char) (m : Measurement) (hm : AccInv m) :
    ∀ glob : MMap, (∀ p ∈ glob, AccInv p.2) → ∀ p ∈ insertOrAggregate glob k m, AccInv p.2 := by
  intro glob
  induction glob with
  | nil =>
    intro _ p hp
    simp only [insertOrAggregate, List.mem_singleton] at hp
    subst hp
    exact hm
  | cons q rest ih =>
    obtain ⟨k1, m1⟩ := q
    intro h p hp
    rw [insertOrAggregate] at hp
    by_cases hk : k1 = k
    · rw [if_pos hk] at hp
      rcases List.mem_cons.mp hp with rfl | h2
      · exact accInv_aggregate m1 m (h (k1, m1) (List.mem_cons_self _ _)) hm
      · exact h p (List.mem_cons_of_mem _ h2)
    · rw [if_neg hk] at hp
      rcases List.mem_cons.mp hp with rfl | h2
      · exact h (k1, m1) (List.mem_cons_self _ _)
      · exact ih (fun x hx => h x (List.mem_cons_of_mem _ hx)) p h2

theorem mergeChunkInto_inv :
    ∀ chunk glob : MMap, (∀ p ∈ glob, AccInv p.2) → (∀ p ∈ chunk, AccInv p.2) →
      ∀ p ∈ mergeChunkInto glob chunk, AccInv p.2 := by
  intro chunk
  induction chunk with
  | nil => intro glob hg _ p hp; exact hg p hp
  | cons q rest ih =>
    obtain ⟨k, m⟩ := q
    intro glob hg hc p hp
    rw [mergeChunkInto] at hp
    exact ih (insertOrAggregate glob k m)
      (insertOrAggregate_inv k m (hc (k, m) (List.mem_cons_self _ _)) glob hg)
      (fun x hx => hc x (List.mem_cons_of_mem _ hx)) p hp

theorem foldl_mergeChunkInto_inv :
    ∀ (results : List MMap) (glob : MMap), (∀ p ∈ glob, AccInv p.2) →
      (∀ chunk ∈ results, ∀ p ∈ chunk, AccInv p.2) →
      ∀ p ∈ results.foldl mergeChunkInto glob, AccInv p.2 := by
  intro results
  induction results with
  | nil => intro glob hg _ p hp; exact hg p hp
  | cons chunk rest ih =>
    intro glob hg hr p hp
    rw [List.foldl_cons] at hp
    exact ih (mergeChunkInto glob chunk)
      (mergeChunkInto_inv chunk glob hg (hr chunk (List.mem_cons_self _ _)))
      (fun c hc => hr c (List.mem_cons_of_mem _ hc)) p hp

/-- C7: accumulators are created only from a first observed value and always
satisfy count ≥ 1 and min ≤ max; the invariant is preserved by record and
merge, holds for every entry of a worker-local mapping produced by
process_lines, and holds for every entry of the merged global mapping. -/
theorem c7_accumulator_invariants :
    (∀ v : ℚ, AccInv (Measurement.fromF64 v)) ∧
    (∀ (m : Measurement) (v : ℚ), AccInv m → AccInv (m.record v)) ∧
    (∀ a b : Measurement, AccInv a → AccInv b → AccInv (a.aggregate b)) ∧
    (∀ (contents : List Char) (m : MMap),
      process_lines contents = some m → ∀ p ∈ m, AccInv p.2) ∧
    (∀ results : List MMap, (∀ chunk ∈ results, ∀ p ∈ chunk, AccInv p.2) →
      ∀ p ∈ mainAggregate results, AccInv p.2) := by
  refine ⟨accInv_fromF64, accInv_record, accInv_aggregate, ?_, ?_⟩
  · intro contents m h
    exact processLinesGo_inv (rustLines contents) [] m
      (fun p hp => absurd hp (List.not_mem_nil p)) h
  · intro results h
    exact foldl_mergeChunkInto_inv results []
      (fun p hp => absurd hp (List.not_mem_nil p)) h

/-- C7 witness: the invariant at concrete accumulators built by first-value
construction, record, merge, and by a concrete process_lines run. -/
theorem c7_accumulator_invariants_witness :
    AccInv (Measurement.fromF64 2) ∧
    AccInv ((Measurement.fromF64 2).record 3) ∧
    AccInv ((Measurement.fromF64 2).aggregate (Measurement.fromF64 3)) ∧
    AccInv ((("a").toList, (⟨1, 1, 1, 1⟩ : Measurement)).2) :=
  ⟨c7_accumulator_invariants.1 2,
   c7_accumulator_invariants.2.1 _ 3 (c7_accumulator_invariants.1 2),
   c7_accumulator_invariants.2.2.1 _ _ (c7_accumulator_invariants.1 2)
     (c7_accumulator_invariants.1 3),
   c7_accumulator_invariants.2.2.2.1 (("a;1.0\n").toList)
     [((("a").toList), ⟨1, 1, 1, 1⟩)] (by with_unfolding_all rfl)
     ((("a").toList), ⟨1, 1, 1, 1⟩) (by with_unfolding_all decide)⟩

theorem lookupA_insertOrAggregate (k k1 : List Char) (m : Measurement) :
    ∀ glob : MMap, lookupA (insertOrAggregate glob k1 m) k =
      if k1 = k then combineOpt (lookupA glob k) (some m) else lookupA glob k := by
  intro glob
  induction glob with
  | nil =>
    simp only [insertOrAggregate, lookupA]
    by_cases hk : k1 = k
    · rw [if_pos hk, if_pos hk]
      rfl
    · rw [if_neg hk, if_neg hk]
  | cons q rest ih =>
    obtain ⟨k2, m2⟩ := q
    rw [insertOrAggregate]
    by_cases h21 : k2 = k1
    · rw [if_pos h21, lookupA, lookupA]
      by_cases h2k : k2 = k
      · rw [if_pos h2k, if_pos h2k, if_pos (h21 ▸ h2k)]
        rfl
      · rw [if_neg h2k, if_neg h2k, if_neg (h21 ▸ h2k)]
    · rw [if_neg h21, lookupA, lookupA]
      by_cases h2k : k2 = k
      · rw [if_pos h2k, if_pos h2k, if_neg (fun h1k => h21 (h1k.trans h2k.symm).symm)]
      · rw [if_neg h2k, if_neg h2k, ih]

theorem lookupA_eq_none_of_not_mem (k : List Char) :
    ∀ chunk : MMap, k ∉ chunk.map Prod.fst → lookupA chunk k = none := by
  intro chunk
  induction chunk with
  | nil => intro _; rfl
  | cons q rest ih =>
    obtain ⟨k1, m1⟩ := q
    intro h
    rw [List.map_cons, List.mem_cons] at h
    push_neg at h
    rw [lookupA, if_neg (fun he => h.1 he.symm)]
    exact ih h.2

theorem lookupA_mergeChunkInto (k : List Char) :
    ∀ chunk glob : MMap, (chunk.map Prod.fst).Nodup →
      lookupA (mergeChunkInto glob chunk) k =
        combineOpt (lookupA glob k) (lookupA chunk k) := by
  intro chunk
  induction chunk with
  | nil => intro glob _; rfl
  | cons q rest ih =>
    obtain ⟨k1, m1⟩ := q
    intro glob hnd
    rw [List.map_cons, List.nodup_cons] at hnd
    rw [mergeChunkInto, ih (insertOrAggregate glob k1 m1) hnd.2,
      lookupA_insertOrAggregate, lookupA]
    by_cases hk : k1 = k
    · rw [if_pos hk, if_pos hk, lookupA_eq_none_of_not_mem k rest (hk ▸ hnd.1)]
      rfl
    · rw [if_neg hk, if_neg hk]

theorem lookupA_foldl_mergeChunkInto (k : List Char) :
    ∀ (results : List MMap) (glob : MMap),
      (∀ chunk ∈ results, (chunk.map Prod.fst).Nodup) →
      lookupA (results.foldl mergeChunkInto glob) k =
        (contribs results k).foldl stepOpt (lookupA glob k) := by
  intro results
  induction results with
  | nil => intro glob _; rfl
  | cons chunk rest ih =>
    intro glob hnd
    rw [List.foldl_cons, ih (mergeChunkInto glob chunk)
        (fun c hc => hnd c (List.mem_cons_of_mem _ hc)),
      lookupA_mergeChunkInto k chunk glob (hnd chunk (List.mem_cons_self _ _))]
    simp only [contribs, List.filterMap_cons]
    cases lookupA chunk k with
    | none => rfl
    | some c => rfl

theorem foldl_stepOpt_some (g : Measurement) :
    ∀ cs : List Measurement, cs.foldl stepOpt (some g) = some (cs.foldl Measurement.aggregate g) := by
  intro cs
  induction cs generalizing g with
  | nil => rfl
  | cons c rest ih => rw [List.foldl_cons, List.foldl_cons]; exact ih (g.aggregate c)

/-- C10: the global mapping is the in-order left fold of the worker results:
for every key, its final accumulator is exactly the worker contributions for
that key merged strictly in worker-spawn-index order (so, for a fixed chunking
and fixed chunk contents, the report does not depend on the iteration order
inside each worker-local map). -/
theorem c10_merge_in_spawn_order (results : List MMap)
    (h : ∀ chunk ∈ results, (chunk.map Prod.fst).Nodup) (k : List Char) :
    lookupA (mainAggregate results) k = foldContribs (contribs results k) := by
  rw [mainAggregate, lookupA_foldl_mergeChunkInto k results [] h]
  cases hc : contribs results k with
  | nil => rfl
  | cons c rest =>
    rw [List.foldl_cons, foldContribs]
    exact foldl_stepOpt_some c rest

/-- C10 witness: two workers both saw key a; the global entry is their two
contributions merged in spawn order. -/
theorem c10_merge_in_spawn_order_witness :
    lookupA (mainAggregate [[((("a").toList), Measurement.fromF64 1)],
        [((("a").toList), Measurement.fromF64 2)]]) (("a").toList) =
      foldContribs (contribs [[((("a").toList), Measurement.fromF64 1)],
        [((("a").toList), Measurement.fromF64 2)]] (("a").toList)) :=
  c10_merge_in_spawn_order _ (by decide) _

theorem keyLtB_irrefl : ∀ a : List Char, keyLtB a a = false := by
  intro a
  induction a with
  | nil => rfl
  | cons c cs ih =>
    simp only [keyLtB, ih, Bool.and_false, Bool.or_false, decide_eq_false_iff_not]
    exact lt_irrefl c

theorem keyLtB_trans : ∀ a b c : List Char,
    keyLtB a b = true → keyLtB b c = true → keyLtB a c = true := by
  intro a
  induction a with
  | nil =>
    intro b c h1 h2
    cases b with
    | nil => exact absurd h1 (by rw [keyLtB]; simp)
    | cons y ys =>
      cases c with
      | nil => exact absurd h2 (by rw [keyLtB]; simp)
      | cons z zs => rfl
  | cons x xs ih =>
    intro b c h1 h2
    cases b with
    | nil => exact absurd h1 (by rw [keyLtB]; simp)
    | cons y ys =>
      cases c with
      | nil => exact absurd h2 (by rw [keyLtB]; simp)
      | cons z zs =>
        simp only [keyLtB, Bool.or_eq_true, Bool.and_eq_true, decide_eq_true_eq] at h1 h2 ⊢
        rcases h1 with h1 | ⟨he1, ht1⟩
        · rcases h2 with h2 | ⟨he2, ht2⟩
          · exact Or.inl (lt_trans h1 h2)
          · exact Or.inl (he2 ▸ h1)
        · rcases h2 with h2 | ⟨he2, ht2⟩
          · exact Or.inl (he1 ▸ h2)
          · exact Or.inr ⟨he1.trans he2, ih ys zs ht1 ht2⟩

theorem keyLtB_trichotomy : ∀ a b : List Char,
    keyLtB a b = true ∨ a = b ∨ keyLtB b a = true := by
  intro a
  induction a with
  | nil =>
    intro b
    cases b with
    | nil => exact Or.inr (Or.inl rfl)
    | cons y ys => exact Or.inl rfl
  | cons x xs ih =>
    intro b
    cases b with
    | nil => exact Or.inr (Or.inr rfl)
    | cons y ys =>
      rcases lt_trichotomy x y with hxy | hxy | hxy
      · exact Or.inl (by simp [keyLtB, hxy])
      · subst hxy
        rcases ih ys with h | h | h
        · exact Or.inl (by simp [keyLtB, h])
        · exact Or.inr (Or.inl (by rw [h]))
        · exact Or.inr (Or.inr (by simp [keyLtB, h]))
      · exact Or.inr (Or.inr (by simp [keyLtB, hxy]))

theorem keyLtB_asymm (a b : List Char) (h : keyLtB a b = true) : keyLtB b a = false := by
  cases hb : keyLtB b a
  · rfl
  · have := keyLtB_trans a b a h hb
    rw [keyLtB_irrefl a] at this
    exact absurd this (by simp)

theorem keyLeB_of_ltB (a b : List Char) (h : keyLtB a b = true) : keyLeB a b = true := by
  rw [keyLeB, keyLtB_asymm a b h]
  rfl

theorem keyLeB_trans (a b c : List Char) (h1 : keyLeB a b = true) (h2 : keyLeB b c = true) :
    keyLeB a c = true := by
  rw [keyLeB, Bool.not_eq_eq_eq_not, Bool.not_true] at h1 h2 ⊢
  cases hca : keyLtB c a
  · rfl
  · rcases keyLtB_trichotomy a b with h | h | h
    · rw [keyLtB_trans c a b hca h] at h2
      exact h2
    · subst h
      rw [hca] at h2
      exact h2
    · rw [h] at h1
      exact h1

theorem insertByKey_perm (p : List Char × Measurement) :
    ∀ l : MMap, (insertByKey p l).Perm (p :: l) := by
  intro l
  induction l with
  | nil => exact List.Perm.refl _
  | cons q rest ih =>
    rw [insertByKey]
    by_cases h : keyLeB p.1 q.1 = true
    · rw [if_pos h]
    · rw [if_neg h]
      exact (List.Perm.cons q ih).trans (List.Perm.swap p q rest)

theorem insertByKey_sorted (p : List Char × Measurement) :
    ∀ l : MMap, List.Pairwise (fun x y => keyLeB x.1 y.1 = true) l →
      List.Pairwise (fun x y => keyLeB x.1 y.1 = true) (insertByKey p l) := by
  intro l
  induction l with
  | nil => intro _; exact List.pairwise_singleton _ _
  | cons q rest ih =>
    intro hp
    rcases List.pairwise_cons.mp hp with ⟨hq, hrest⟩
    rw [insertByKey]
    by_cases h : keyLeB p.1 q.1 = true
    · rw [if_pos h]
      refine List.pairwise_cons.mpr ⟨?_, hp⟩
      intro x hx
      rcases List.mem_cons.mp hx with rfl | hx2
      · exact h
      · exact keyLeB_trans p.1 q.1 x.1 h (hq x hx2)
    · rw [if_neg h]
      refine List.pairwise_cons.mpr ⟨?_, ih hrest⟩
      intro x hx
      rcases List.mem_cons.mp ((insertByKey_perm p rest).mem_iff.mp hx) with rfl | hx2
      · have hlt : keyLtB q.1 x.1 = true := by
          cases hb : keyLtB q.1 x.1
          · exact absurd (by rw [keyLeB, hb]; rfl) h
          · rfl
        exact keyLeB_of_ltB q.1 x.1 hlt
      · exact hq x hx2

theorem sortResults_perm : ∀ m : MMap, (sortResults m).Perm m := by
  intro m
  induction m with
  | nil => exact List.Perm.refl _
  | cons e rest ih =>
    rw [sortResults, List.foldr_cons]
    exact (insertByKey_perm e _).trans (List.Perm.cons e ih)

theorem sortResults_sorted :
    ∀ m : MMap, List.Pairwise (fun x y => keyLeB x.1 y.1 = true) (sortResults m) := by
  intro m
  induction m with
  | nil => exact List.Pairwise.nil
  | cons e rest ih =>
    rw [sortResults, List.foldr_cons]
    exact insertByKey_sorted e _ ih

/-- C4 counterexample: the actual byte stream keeps the comma after the last
entry and appends a backspace byte before the closing brace, and min and max
use the shortest default float format, so the integral maximum 12.0 prints as
12 with no fractional digit; the claimed format differs in both respects. -/
theorem c4_report_format_counterexample :
    renderReport [((("Berlin").toList), ⟨17/2, 17/2, 17/2, 1⟩),
      ((("Hamburg").toList), ⟨-(16/5), 12, 44/5, 2⟩)] =
      ("\x7bBerlin=8.5/8.5/8.5,Hamburg=-3.2/12/4.4,\x08\x7d").toList ∧
    ("\x7bBerlin=8.5/8.5/8.5,Hamburg=-3.2/12/4.4,\x08\x7d").toList ≠
      ("\x7bBerlin=8.5/8.5/8.5,Hamburg=-3.2/12.0/4.4\x7d").toList :=
  ⟨by with_unfolding_all rfl, by decide⟩

/-- C4 amended: the report is the entries of the global mapping in ascending
byte-wise key order, but each entry key=min/max/mean is followed by a comma,
the last included; the written stream closes with a backspace byte then the
brace, and only the mean is forced to one fractional digit, min and max using
the shortest default float rendering. -/
theorem c4_report_format_amended (m : MMap) :
    (sortResults m).Perm m ∧
    List.Pairwise (fun x y => keyLeB x.1 y.1 = true) (sortResults m) ∧
    renderReport m =
      Char.ofNat 123 :: ((sortResults m).map renderEntry).flatten ++ [Char.ofNat 8, Char.ofNat 125] :=
  ⟨sortResults_perm m, sortResults_sorted m, rfl⟩
